import Mathlib

/-!
Verification of the FlowDB-rs storage engine against its specification.

The development shallowly embeds the two source files:

* `src/main.rs` — the sharded, replicated, compressing key-value store
  (`StorageServer`, `Partition`, `compress`, `decompress`);
* `src/transaction_log.rs` — the write-ahead log with size-triggered
  rotation, backup retention and compaction (`TransactionLog`).

Machine integers (`usize`, `u64`, `u32`) are modelled as `Nat`; none of the
modelled operations can overflow them on the inputs considered, and the only
wrap-relevant spot (`hasher.finish() as usize`) is absorbed into the abstract
hash function.  Fallible operations return `Option`/`Except`; a Rust panic is
modelled as `none`.  File-system state is explicit: an `FS` value maps inode
ids to byte contents and path names to inode ids, which is needed to express
the POSIX fact that `fs::rename` moves the inode while already-open handles
keep addressing it.
-/

/-! ## Compression codec

`main.rs` delegates to the external `snap` crate (`SnapEncoder::compress_vec`
/ `SnapDecoder::decompress_vec`), whose code is not part of this repository.
-/

/-- Modelled from the spec: `compress(bytes) -> CompressedValue` always
succeeds (a fixed block-compression algorithm); the `snap` raw Snappy encoder
itself is an external dependency, so it is modelled as an injective
length-prefixed block encoding. -/
def compress (data : List Nat) : List Nat :=
  data.length :: data

/-- Modelled from the spec: `decompress(CompressedValue) -> bytes` fails with
a `CorruptData` condition if the input is not a well-formed compressed block;
the model rejects blocks whose length prefix does not match the payload. -/
def decompress (data : List Nat) : Option (List Nat) :=
  match data with
  | [] => none
  | n :: rest => if rest.length = n then some rest else none

/-- Byte representation of a Rust `String`'s contents, as stored by
`value.as_bytes()`.  Modelled from the spec: values are opaque byte strings
whose equality is byte-exact; we represent the byte sequence by the
(injectively corresponding) sequence of scalar values. -/
def strBytes (s : String) : List Nat :=
  s.toList.map Char.toNat

/-- Modelled from the spec: `String::from_utf8` recovers a string exactly
from the byte representation produced by `strBytes` and fails on any byte
sequence that is not such a representation. -/
def strFromBytes (bs : List Nat) : Option String :=
  let cs := bs.map Char.ofNat
  if cs.map Char.toNat = bs then some (String.mk cs) else none

theorem strFromBytes_strBytes (s : String) : strFromBytes (strBytes s) = some s := by
  have hmap : (s.toList.map Char.toNat).map Char.ofNat = s.toList := by
    rw [List.map_map]
    apply List.map_id''
    intro c
    exact Char.ofNat_toNat c
  unfold strFromBytes strBytes
  simp only [hmap, if_pos rfl]
  rfl

/-! ## The sharded replicated store (`src/main.rs`)

`Partition.data : HashMap<String, Vec<u8>>` is modelled as a function from
keys to optional byte strings.  The `Arc<RwLock<_>>` aliasing of `main.rs` —
`partitions[i]` is the same cell as `replicas[0]` of shard `i`, and every
partition of a shard carries the full ordered sibling list — collapses, in a
single-threaded pure model, to one list of `replica_count` partition maps per
shard, the primary at position 0.  `DefaultHasher` is an unspecified
process-stable hash, so the model is parameterised by an arbitrary
`hash : String → Nat` (covering `hasher.finish() as usize`). -/

def PartData : Type := String → Option (List Nat)

def emptyPart : PartData := fun _ => none

def insertKV (p : PartData) (k : String) (v : List Nat) : PartData :=
  fun q => if q = k then some v else p q

structure StorageServer where
  shards : List (List PartData)
  replicas : Nat

/-- `StorageServer::new`.  The source returns `Self` with no error path; for
each of the `num_partitions` loop iterations it pushes
`Arc::clone(&replicas[0])`, which panics (index out of bounds) when
`num_replicas == 0`.  The panic is modelled as `none`; note that with
`num_partitions == 0` the loop body never runs, so construction succeeds. -/
def StorageServer.new (numPartitions numReplicas : Nat) : Option StorageServer :=
  if 0 < numPartitions ∧ numReplicas = 0 then none
  else some { shards := List.replicate numPartitions (List.replicate numReplicas emptyPart),
              replicas := numReplicas }

/-- Index computation of `StorageServer::get_partition`:
`hasher.finish() as usize % self.partitions.len()`.  The `%` panics when
`partitions.len() == 0`; modelled as `none`. -/
def shardIndex (hash : String → Nat) (st : StorageServer) (k : String) : Option Nat :=
  if st.shards.length = 0 then none else some (hash k % st.shards.length)

/-- `StorageServer::get`: route to the shard, read the primary partition
only, decompress, revalidate as UTF-8.  The Rust return type is
`Result<String, ()>`: absence, corrupt data and invalid UTF-8 all map to the
same `Err(())`.  The outer `Option` is the panic of `get_partition` on an
empty partition vector. -/
def StorageServer.get (hash : String → Nat) (st : StorageServer) (k : String) :
    Option (Except Unit String) :=
  match shardIndex hash st k with
  | none => none
  | some idx =>
    match (st.shards.getD idx []).head? with
    | none => none
    | some primary =>
      match primary k with
      | none => some (Except.error ())
      | some compressedData =>
        match decompress compressedData with
        | none => some (Except.error ())
        | some bytes =>
          match strFromBytes bytes with
          | none => some (Except.error ())
          | some value => some (Except.ok value)

/-- `StorageServer::put`: compress once, insert into the primary
(`partition_guard.data.insert`), then into every sibling in
`partition_guard.replicas.iter().skip(1)`.  Since the primary is element 0 of
the sibling list, the net effect is an insert into every partition of the
shard's replica set.  The only value ever returned is `Ok(())`; the outer
`Option` is the `get_partition` panic. -/
def StorageServer.put (hash : String → Nat) (st : StorageServer) (k v : String) :
    Option (StorageServer × Except Unit Unit) :=
  let bytes := compress (strBytes v)
  match shardIndex hash st k with
  | none => none
  | some idx =>
    let newShard := (st.shards.getD idx []).map (fun p => insertKV p k bytes)
    some ({ st with shards := st.shards.set idx newShard }, Except.ok ())

/-! ## List helper lemmas -/

theorem getD_set_self {α : Type} (l : List α) (i : Nat) (a d : α) (h : i < l.length) :
    (l.set i a).getD i d = a := by
  induction l generalizing i with
  | nil => simp at h
  | cons x xs ih =>
    cases i with
    | zero => rfl
    | succ n => exact ih n (by simpa using h)

theorem getD_set_ne {α : Type} (l : List α) (i j : Nat) (a d : α) (h : i ≠ j) :
    (l.set i a).getD j d = l.getD j d := by
  induction l generalizing i j with
  | nil => rfl
  | cons x xs ih =>
    cases i with
    | zero =>
      cases j with
      | zero => exact absurd rfl h
      | succ m => rfl
    | succ n =>
      cases j with
      | zero => rfl
      | succ m => exact ih n m (fun hnm => h (by rw [hnm]))

theorem getD_map_head {α β : Type} (f : α → β) (p : α) (ts : List α) :
    ((p :: ts).map f).head? = some (f p) := rfl

theorem getD_mem_of_lt {α : Type} (l : List α) (i : Nat) (d : α) (h : i < l.length) :
    l.getD i d ∈ l := by
  induction l generalizing i with
  | nil => simp at h
  | cons x xs ih =>
    cases i with
    | zero => exact List.mem_cons_self x xs
    | succ n => exact List.mem_cons_of_mem x (ih n (by simpa using h))

theorem getD_map_at {α β : Type} (f : α → β) (l : List α) (j : Nat) (d : α) (e : β)
    (h : j < l.length) : (l.map f).getD j e = f (l.getD j d) := by
  induction l generalizing j with
  | nil => simp at h
  | cons x xs ih =>
    cases j with
    | zero => rfl
    | succ n => exact ih n (by simpa using h)

theorem getD_ge_length {α : Type} (l : List α) (i : Nat) (d : α) (h : l.length ≤ i) :
    l.getD i d = d := by
  induction l generalizing i with
  | nil => cases i <;> rfl
  | cons x xs ih =>
    cases i with
    | zero => simp at h
    | succ n => exact ih n (by simpa using h)

/-! ## Shared codec lemma -/

theorem decompress_compress (x : List Nat) : decompress (compress x) = some x := by
  unfold compress decompress
  simp

/-! ## Store lemmas -/

/-- What a successful `put` computes, for any store with a nonempty
partition vector. -/
theorem put_eq (hash : String → Nat) (st : StorageServer) (k v : String)
    (hne : st.shards ≠ []) :
    StorageServer.put hash st k v =
      some ({ st with
              shards := (st.shards.set (hash k % st.shards.length)
                ((st.shards.getD (hash k % st.shards.length) []).map
                  (fun p => insertKV p k (compress (strBytes v))))) },
            Except.ok ()) := by
  unfold StorageServer.put shardIndex
  rw [if_neg (fun h => hne (List.length_eq_zero.mp h))]

/-- A store built by `new` with positive counts has a nonempty partition
vector, every shard nonempty and of length `numReplicas`. -/
theorem new_shards_shape (numPartitions numReplicas : Nat)
    (hp : 0 < numPartitions) (hr : 0 < numReplicas) (st : StorageServer)
    (h : StorageServer.new numPartitions numReplicas = some st) :
    st.shards ≠ [] ∧ ∀ sh ∈ st.shards, sh.length = numReplicas ∧ sh ≠ [] := by
  unfold StorageServer.new at h
  rw [if_neg (show ¬(0 < numPartitions ∧ numReplicas = 0) from
    fun hc => Nat.lt_irrefl 0 (hc.2 ▸ hr))] at h
  cases h
  constructor
  · intro hnil
    have := congrArg List.length hnil
    simp [List.length_replicate] at this
    omega
  · intro sh hsh
    have hsh' := List.eq_of_mem_replicate hsh
    subst hsh'
    refine ⟨List.length_replicate _ _, ?_⟩
    intro hnil
    have := congrArg List.length hnil
    simp [List.length_replicate] at this
    omega

/-- Claim C3: for every key `k` and value `v`, on a store built with positive
shard and replica counts (any store whose partition vector is nonempty and
whose shards are nonempty, which `new` guarantees for positive counts and
`put` preserves), `put(k, v)` followed by `get(k)` returns exactly `v`: the
value round-trips through compression and storage unchanged. -/
theorem put_get_roundtrip (hash : String → Nat) (st : StorageServer)
    (hne : st.shards ≠ []) (hsh : ∀ sh ∈ st.shards, sh ≠ [])
    (k v : String) (st2 : StorageServer) (res : Except Unit Unit)
    (hput : StorageServer.put hash st k v = some (st2, res)) :
    StorageServer.get hash st2 k = some (Except.ok v) := by
  have hlen0 : st.shards.length ≠ 0 := fun h => hne (List.length_eq_zero.mp h)
  have hpos : 0 < st.shards.length := Nat.pos_of_ne_zero hlen0
  have hidx : hash k % st.shards.length < st.shards.length := Nat.mod_lt _ hpos
  rw [put_eq hash st k v hne] at hput
  have hpair : st2 = { st with
      shards := (st.shards.set (hash k % st.shards.length)
        ((st.shards.getD (hash k % st.shards.length) []).map
          (fun p => insertKV p k (compress (strBytes v))))) } ∧ res = Except.ok () := by
    have h := hput.symm
    simpa using h
  obtain ⟨p, ts, hshard⟩ :=
    List.exists_cons_of_ne_nil (hsh _ (getD_mem_of_lt st.shards _ [] hidx))
  have hsi : shardIndex hash st2 k = some (hash k % st.shards.length) := by
    rw [hpair.1]
    unfold shardIndex
    simp only [List.length_set]
    rw [if_neg hlen0]
  have hgetD : st2.shards.getD (hash k % st.shards.length) []
      = (st.shards.getD (hash k % st.shards.length) []).map
          (fun p => insertKV p k (compress (strBytes v))) := by
    rw [hpair.1]
    exact getD_set_self _ _ _ _ (by simpa using hidx)
  rw [List.getD_eq_getElem?_getD] at hgetD hshard
  unfold StorageServer.get
  rw [hsi]
  simp [hgetD, hshard, insertKV, decompress_compress, strFromBytes_strBytes]

def hashW : String → Nat := fun _ => 0

def stW : StorageServer :=
  { shards := List.replicate 3 (List.replicate 2 emptyPart), replicas := 2 }

def stW2 : StorageServer :=
  ((StorageServer.put hashW stW "test_key" "test_value").getD (stW, Except.ok ())).1

theorem put_get_roundtrip_witness :
    StorageServer.get hashW stW2 "test_key" = some (Except.ok "test_value") := by
  refine put_get_roundtrip hashW stW ?_ ?_ "test_key" "test_value" stW2 (Except.ok ()) ?_
  · intro h
    simp [stW, List.replicate] at h
  · intro sh hsh
    have hsh' : sh ∈ List.replicate 3 (List.replicate 2 emptyPart) := hsh
    rw [List.eq_of_mem_replicate hsh']
    simp [List.replicate]
  · rfl

/-- A one-shard, one-replica store with no entries: `k` is absent. -/
def stAbsent : StorageServer := { shards := [[emptyPart]], replicas := 1 }

/-- A one-shard, one-replica store whose stored bytes for `k` fail to
decompress (`[1]` is a malformed block). -/
def stCorrupt : StorageServer :=
  { shards := [[insertKV emptyPart "k" [1]]], replicas := 1 }

/-- Counterexample to claim C4: `get` has the Rust type `Result<String, ()>`,
so the absent-key outcome and the corrupt-data outcome are the very same
value `Err(())` — the caller cannot distinguish them, and corruption is
reported exactly as absence is. -/
theorem get_absent_corrupt_indistinguishable :
    StorageServer.get hashW stAbsent "k" = some (Except.error ()) ∧
    StorageServer.get hashW stCorrupt "k" = some (Except.error ()) ∧
    StorageServer.get hashW stAbsent "k" = StorageServer.get hashW stCorrupt "k" :=
  ⟨rfl, rfl, rfl⟩

/-- Claim C4 (amended): `get(k)` returns an error when `k` is absent from
its shard's primary partition, and an error when `k`'s stored bytes fail to
decompress; but both outcomes are the same unit error `Err(())`, so they are
not distinguishable to the caller and corruption is reported identically to
absence. -/
theorem get_error_unit_collapse (hash : String → Nat) (st : StorageServer) (k : String)
    (idx : Nat) (primary : PartData)
    (hidx : shardIndex hash st k = some idx)
    (hhead : (st.shards.getD idx []).head? = some primary) :
    (primary k = none → StorageServer.get hash st k = some (Except.error ())) ∧
    (∀ bs, primary k = some bs → decompress bs = none →
      StorageServer.get hash st k = some (Except.error ())) := by
  rw [List.getD_eq_getElem?_getD] at hhead
  constructor
  · intro habs
    unfold StorageServer.get
    rw [hidx]
    simp [hhead, habs]
  · intro bs hbs hbad
    unfold StorageServer.get
    rw [hidx]
    simp [hhead, hbs, hbad]

theorem get_error_unit_collapse_witness :
    StorageServer.get hashW stCorrupt "k" = some (Except.error ()) :=
  (get_error_unit_collapse hashW stCorrupt "k" 0 (insertKV emptyPart "k" [1])
    rfl rfl).2 [1] rfl rfl

/-- The store that `StorageServer::new(0, 1)` actually returns. -/
def stZeroShards : StorageServer := { shards := [], replicas := 1 }

/-- Counterexample to claim C5: with `shard_count == 0` and
`replica_count == 1` the claim demands a configuration-error failure, but
`new` has return type `Self`, runs its construction loop zero times, and
succeeds, returning a store with an empty partition vector. -/
theorem new_zero_shards_succeeds :
    StorageServer.new 0 1 = some stZeroShards := rfl

/-- Claim C5 (amended): construction fails exactly when `shard_count > 0`
and `replica_count == 0` — and then by an index panic (`replicas[0]`), not a
reported configuration error; in every other case (including
`shard_count == 0`) it succeeds, and it builds `shard_count` replica sets of
`replica_count` partitions each. -/
theorem new_failure_characterization (s r : Nat) :
    (StorageServer.new s r = none ↔ 0 < s ∧ r = 0) ∧
    (∀ st, StorageServer.new s r = some st →
      st.shards.length = s ∧ ∀ sh ∈ st.shards, sh.length = r) := by
  constructor
  · constructor
    · intro h
      by_cases hc : 0 < s ∧ r = 0
      · exact hc
      · unfold StorageServer.new at h
        rw [if_neg hc] at h
        cases h
    · intro hc
      unfold StorageServer.new
      rw [if_pos hc]
  · intro st h
    unfold StorageServer.new at h
    by_cases hc : 0 < s ∧ r = 0
    · rw [if_pos hc] at h
      cases h
    · rw [if_neg hc] at h
      cases h
      refine ⟨List.length_replicate _ _, ?_⟩
      intro sh hsh
      rw [List.eq_of_mem_replicate hsh]
      exact List.length_replicate _ _

/-- The store that `StorageServer::new(2, 3)` returns. -/
def stW23 : StorageServer :=
  { shards := List.replicate 2 (List.replicate 3 emptyPart), replicas := 3 }

theorem new_failure_characterization_witness :
    stW23.shards.length = 2 ∧ ∀ sh ∈ stW23.shards, sh.length = 3 :=
  (new_failure_characterization 2 3).2 stW23 rfl

/-- Claim C6: for every byte string `x`, including the empty string,
`decompress(compress(x)) == x`; `compress` (a total function here) always
succeeds. -/
theorem roundtrip_law (x : List Nat) : decompress (compress x) = some x :=
  decompress_compress x

/-- Claim C7: after a successful `put(k, v)` on a store whose shards each
hold `r` partitions (as built by `new(s, r)` and preserved by `put`), every
one of the `r` partitions in `k`'s shard's replica set — primary and all
secondaries, read directly — holds for `k` the same compressed bytes, and
those bytes decompress back to `v`. -/
theorem put_replicates_all (hash : String → Nat) (r : Nat) (st : StorageServer)
    (hne : st.shards ≠ []) (hr : ∀ sh ∈ st.shards, sh.length = r)
    (k v : String) (st2 : StorageServer) (res : Except Unit Unit)
    (hput : StorageServer.put hash st k v = some (st2, res))
    (idx : Nat) (hidx : shardIndex hash st k = some idx) :
    (st2.shards.getD idx []).length = r ∧
    (∀ p ∈ st2.shards.getD idx [], p k = some (compress (strBytes v))) ∧
    decompress (compress (strBytes v)) = some (strBytes v) ∧
    strFromBytes (strBytes v) = some v := by
  have hlen0 : st.shards.length ≠ 0 := fun h => hne (List.length_eq_zero.mp h)
  have hidx' : idx = hash k % st.shards.length := by
    unfold shardIndex at hidx
    rw [if_neg hlen0] at hidx
    exact (Option.some.inj hidx).symm
  have hlt : idx < st.shards.length := hidx' ▸ Nat.mod_lt _ (Nat.pos_of_ne_zero hlen0)
  rw [put_eq hash st k v hne] at hput
  have hst2 : st2.shards = st.shards.set (hash k % st.shards.length)
      ((st.shards.getD (hash k % st.shards.length) []).map
        (fun p => insertKV p k (compress (strBytes v)))) := by
    have h := hput.symm
    simp only [Option.some.injEq, Prod.mk.injEq] at h
    rw [h.1]
  have hgetD : st2.shards.getD idx []
      = (st.shards.getD idx []).map (fun p => insertKV p k (compress (strBytes v))) := by
    rw [hst2, ← hidx']
    exact getD_set_self _ _ _ _ (hidx' ▸ hlt)
  refine ⟨?_, ?_, decompress_compress _, strFromBytes_strBytes v⟩
  · rw [hgetD, List.length_map]
    exact hr _ (getD_mem_of_lt st.shards idx [] hlt)
  · intro p hp
    rw [hgetD] at hp
    obtain ⟨p0, _, hp0⟩ := List.mem_map.mp hp
    rw [← hp0]
    unfold insertKV
    rw [if_pos rfl]

def stW7 : StorageServer :=
  ((StorageServer.put hashW stW23 "test_key" "test_value").getD
    (stW23, Except.ok ())).1

theorem put_replicates_all_witness :
    (stW7.shards.getD 0 []).length = 3 ∧
    (∀ p ∈ stW7.shards.getD 0 [], p "test_key"
      = some (compress (strBytes "test_value"))) ∧
    decompress (compress (strBytes "test_value")) = some (strBytes "test_value") ∧
    strFromBytes (strBytes "test_value") = some "test_value" := by
  refine put_replicates_all hashW 3 stW23 ?_ ?_ "test_key" "test_value" stW7
    (Except.ok ()) rfl 0 rfl
  · intro h
    simp [stW23, List.replicate] at h
  · intro sh hsh
    have hsh' : sh ∈ List.replicate 2 (List.replicate 3 emptyPart) := hsh
    rw [List.eq_of_mem_replicate hsh']
    exact List.length_replicate _ _

/-- Counterexample to claim C9: the empty-partition store is a reachable
store state — `new(0, 1)` returns it — and on it `put` panics (`%` by zero
in `get_partition`) instead of returning `Ok`. -/
theorem put_on_reachable_store_panics :
    StorageServer.new 0 1 = some stZeroShards ∧
    StorageServer.put hashW stZeroShards "k" "v" = none :=
  ⟨rfl, rfl⟩

/-- Claim C9 (amended): the failure branch of `put`'s result type is never
produced — whenever `put` returns, its result is `Ok(())`, and on every
store with a nonempty partition vector it does return `Ok`; however, on the
(reachable) store with zero partitions `put` panics instead of returning. -/
theorem put_never_error (hash : String → Nat) (st : StorageServer) (k v : String) :
    (∀ st2 res, StorageServer.put hash st k v = some (st2, res) → res = Except.ok ()) ∧
    (st.shards ≠ [] → ∃ st2, StorageServer.put hash st k v = some (st2, Except.ok ())) := by
  constructor
  · intro st2 res h
    by_cases hc : st.shards = []
    · simp [StorageServer.put, shardIndex, hc] at h
    · rw [put_eq hash st k v hc] at h
      have h' := h.symm
      simp only [Option.some.injEq, Prod.mk.injEq] at h'
      exact h'.2
  · intro hne
    exact ⟨_, put_eq hash st k v hne⟩

theorem put_never_error_witness :
    ∃ st2, StorageServer.put hashW stW "k1" "v1" = some (st2, Except.ok ()) :=
  (put_never_error hashW stW "k1" "v1").2
    (fun h => by simp [stW, List.replicate] at h)

/-- Claim C10: `put(k, v)` changes at most the mapping for `k`: in every
partition of every shard, the stored bytes for every key other than `k` are
exactly as before the call. -/
theorem put_frame (hash : String → Nat) (st : StorageServer) (k v : String)
    (st2 : StorageServer) (res : Except Unit Unit)
    (hput : StorageServer.put hash st k v = some (st2, res))
    (k2 : String) (hk : k2 ≠ k) (i j : Nat) :
    ((st2.shards.getD i []).getD j emptyPart) k2
      = ((st.shards.getD i []).getD j emptyPart) k2 := by
  have hne : st.shards ≠ [] := by
    intro hnil
    unfold StorageServer.put shardIndex at hput
    rw [hnil] at hput
    simp at hput
  rw [put_eq hash st k v hne] at hput
  have hst2 : st2.shards = st.shards.set (hash k % st.shards.length)
      ((st.shards.getD (hash k % st.shards.length) []).map
        (fun p => insertKV p k (compress (strBytes v)))) := by
    have h := hput.symm
    simp only [Option.some.injEq, Prod.mk.injEq] at h
    rw [h.1]
  rw [hst2]
  by_cases hi : hash k % st.shards.length = i
  · subst hi
    have hlt : hash k % st.shards.length < st.shards.length :=
      Nat.mod_lt _ (Nat.pos_of_ne_zero (fun h => hne (List.length_eq_zero.mp h)))
    rw [getD_set_self _ _ _ _ hlt]
    by_cases hj : j < (st.shards.getD (hash k % st.shards.length) []).length
    · rw [getD_map_at _ _ _ emptyPart emptyPart hj]
      unfold insertKV
      rw [if_neg hk]
    · rw [getD_ge_length _ _ _ (by rw [List.length_map]; omega),
        getD_ge_length _ _ _ (by omega)]
  · rw [getD_set_ne _ _ _ _ _ hi]

def stFrame : StorageServer :=
  ((StorageServer.put hashW stW "other_key" "other_value").getD
    (stW, Except.ok ())).1

theorem put_frame_witness :
    ((stFrame.shards.getD 0 []).getD 0 emptyPart) "test_key"
      = ((stW.shards.getD 0 []).getD 0 emptyPart) "test_key" :=
  put_frame hashW stW "other_key" "other_value" stFrame (Except.ok ()) rfl
    "test_key" (by decide) 0 0

/-! ## Paths (`std::path` behaviour used by `transaction_log.rs`)

Paths are lists of characters.  `PathBuf::set_extension`, `Path::extension`,
`Path::file_stem` and `Path::parent` act on the file name, the portion after
the last `/`; an extension is the portion of the file name after its last
dot, provided the part before that dot is nonempty (a name such as
`.gitignore` has no extension).  Paths are taken in normalized form (no
trailing slash, no `..`). -/

/-- Split a list at its last dot: `lastDotSplit l = some (s, e)` when
`l = s ++ '.' :: e` with no dot in `e`; `none` when `l` has no dot. -/
def lastDotSplit : List Char → Option (List Char × List Char)
  | [] => none
  | c :: rest =>
    match lastDotSplit rest with
    | some (s, e) => some (c :: s, e)
    | none => if c = '.' then some ([], rest) else none

theorem lastDotSplit_eq_none (l : List Char) (h : '.' ∉ l) : lastDotSplit l = none := by
  induction l with
  | nil => rfl
  | cons c rest ih =>
    unfold lastDotSplit
    rw [ih (fun hm => h (List.mem_cons_of_mem c hm))]
    rw [if_neg (fun hc => h (by rw [← hc]; exact List.mem_cons_self c rest))]

theorem not_dot_of_lastDotSplit_eq_none (l : List Char) (h : lastDotSplit l = none) :
    '.' ∉ l := by
  induction l with
  | nil => simp
  | cons c rest ih =>
    unfold lastDotSplit at h
    intro hmem
    cases hr : lastDotSplit rest with
    | some p => rw [hr] at h; cases h
    | none =>
      rw [hr] at h
      by_cases hc : c = '.'
      · rw [if_pos hc] at h; cases h
      · cases List.mem_cons.mp hmem with
        | inl h1 => exact hc h1.symm
        | inr h2 => exact ih hr h2

theorem lastDotSplit_spec (l s e : List Char) (h : lastDotSplit l = some (s, e)) :
    l = s ++ '.' :: e ∧ '.' ∉ e := by
  induction l generalizing s e with
  | nil => cases h
  | cons c rest ih =>
    unfold lastDotSplit at h
    cases hr : lastDotSplit rest with
    | some p =>
      rw [hr] at h
      obtain ⟨s0, e0⟩ := p
      have hse : c :: s0 = s ∧ e0 = e := by
        have := Option.some.inj h
        exact ⟨congrArg Prod.fst this, congrArg Prod.snd this⟩
      obtain ⟨h1, h2⟩ := ih s0 e0 hr
      rw [← hse.1, ← hse.2]
      exact ⟨by rw [h1]; rfl, h2⟩
    | none =>
      rw [hr] at h
      by_cases hc : c = '.'
      · rw [if_pos hc] at h
        have hse : ([] : List Char) = s ∧ rest = e := by
          have := Option.some.inj h
          exact ⟨congrArg Prod.fst this, congrArg Prod.snd this⟩
        rw [← hse.1, ← hse.2, hc]
        exact ⟨rfl, not_dot_of_lastDotSplit_eq_none rest hr⟩
      · rw [if_neg hc] at h
        cases h

theorem lastDotSplit_append (l m : List Char) (h : '.' ∉ m) :
    lastDotSplit (l ++ '.' :: m) = some (l, m) := by
  induction l with
  | nil =>
    show lastDotSplit ('.' :: m) = some ([], m)
    unfold lastDotSplit
    rw [lastDotSplit_eq_none m h, if_pos rfl]
  | cons c rest ih =>
    show lastDotSplit (c :: (rest ++ '.' :: m)) = some (c :: rest, m)
    unfold lastDotSplit
    rw [ih]

/-- Split a path into directory part (including the trailing slash) and
file name (the portion after the last slash). -/
def splitPath : List Char → List Char × List Char
  | [] => ([], [])
  | c :: rest =>
    if '/' ∈ rest then
      (c :: (splitPath rest).1, (splitPath rest).2)
    else if c = '/' then (['/'], rest)
    else ([], c :: rest)

def fileName (p : List Char) : List Char := (splitPath p).2

def parentDir (p : List Char) : List Char := (splitPath p).1

theorem fileName_no_slash (p : List Char) : '/' ∉ fileName p := by
  induction p with
  | nil => simp [fileName, splitPath]
  | cons c rest ih =>
    unfold fileName splitPath
    by_cases hr : '/' ∈ rest
    · rw [if_pos hr]
      exact ih
    · rw [if_neg hr]
      by_cases hc : c = '/'
      · rw [if_pos hc]
        exact hr
      · rw [if_neg hc]
        intro hmem
        cases List.mem_cons.mp hmem with
        | inl h1 => exact hc h1.symm
        | inr h2 => exact hr h2

theorem splitPath_recomb (p : List Char) : parentDir p ++ fileName p = p := by
  induction p with
  | nil => rfl
  | cons c rest ih =>
    unfold parentDir fileName splitPath
    by_cases hr : '/' ∈ rest
    · rw [if_pos hr]
      show c :: (parentDir rest ++ fileName rest) = c :: rest
      rw [ih]
    · rw [if_neg hr]
      by_cases hc : c = '/'
      · rw [if_pos hc, hc]
        rfl
      · rw [if_neg hc]
        rfl

theorem parentDir_shape (p : List Char) :
    parentDir p = [] ∨ ∃ d, parentDir p = d ++ ['/'] := by
  induction p with
  | nil => exact Or.inl rfl
  | cons c rest ih =>
    unfold parentDir splitPath
    by_cases hr : '/' ∈ rest
    · rw [if_pos hr]
      refine Or.inr ?_
      cases ih with
      | inl h0 =>
        exfalso
        have := splitPath_recomb rest
        rw [show parentDir rest = [] from h0] at this
        exact fileName_no_slash rest (by rw [show fileName rest = rest from this]; exact hr)
      | inr h1 =>
        obtain ⟨d, hd⟩ := h1
        exact ⟨c :: d, by rw [show (splitPath rest).1 = d ++ ['/'] from hd]; rfl⟩
    · rw [if_neg hr]
      by_cases hc : c = '/'
      · rw [if_pos hc]
        exact Or.inr ⟨[], rfl⟩
      · rw [if_neg hc]
        exact Or.inl rfl

theorem splitPath_dir_append (d g : List Char)
    (hd : d = [] ∨ ∃ d0, d = d0 ++ ['/']) (hg : '/' ∉ g) :
    splitPath (d ++ g) = (d, g) := by
  cases hd with
  | inl h0 =>
    subst h0
    show splitPath g = ([], g)
    cases g with
    | nil => rfl
    | cons c rest =>
      unfold splitPath
      rw [if_neg (fun hm => hg (List.mem_cons_of_mem c hm))]
      rw [if_neg (fun hc => hg (by rw [← hc]; exact List.mem_cons_self c rest))]
  | inr h1 =>
    obtain ⟨d0, hd0⟩ := h1
    subst hd0
    induction d0 with
    | nil =>
      show splitPath ('/' :: g) = (['/'], g)
      unfold splitPath
      rw [if_neg hg, if_pos rfl]
    | cons c d0 ih =>
      show splitPath (c :: (d0 ++ ['/'] ++ g)) = (c :: d0 ++ ['/'], g)
      unfold splitPath
      have hmem : '/' ∈ d0 ++ ['/'] ++ g := by
        refine List.mem_append.mpr (Or.inl ?_)
        exact List.mem_append.mpr (Or.inr (List.mem_cons_self _ _))
      rw [if_pos hmem]
      have hih := ih
      rw [show (d0 ++ ['/']) ++ g = d0 ++ ['/'] ++ g from rfl] at hih
      rw [hih]
      rfl

/-- `Path::file_stem` applied to a bare file name: the portion before the
last dot (the whole name when there is no dot, or only a leading one). -/
def setExtStem (name : List Char) : List Char :=
  match lastDotSplit name with
  | some (s, _) => if s = [] then name else s
  | none => name

/-- `backup_path.set_extension("log.bak")` from `TransactionLog::rotate`:
replace the extension of the file name (or append one) with `log.bak`. -/
def setExtLogBak (name : List Char) : List Char :=
  setExtStem name ++ ".log.bak".toList

def backupPath (p : List Char) : List Char :=
  parentDir p ++ setExtLogBak (fileName p)

/-- `Path::extension`: the portion of the file name after its last dot,
provided the stem is nonempty. -/
def extensionOf (p : List Char) : Option (List Char) :=
  match lastDotSplit (fileName p) with
  | some (s, e) => if s = [] then none else some e
  | none => none

/-- `Path::file_stem` of a path. -/
def stemOf (p : List Char) : List Char := setExtStem (fileName p)

/-- `str::parse::<u32>()`: an optional `+` sign, then one or more ASCII
digits, value at most `u32::MAX`. -/
def parseU32 (s : List Char) : Option Nat :=
  let ds := match s with
    | c :: rest => if c = '+' then rest else s
    | [] => s
  if ds ≠ [] ∧ ds.all Char.isDigit then
    let n := ds.foldl (fun acc c => acc * 10 + (c.toNat - 48)) 0
    if n ≤ 4294967295 then some n else none
  else none

theorem setExtStem_of_split (name s e : List Char) (h : lastDotSplit name = some (s, e)) :
    setExtStem name = if s = [] then name else s := by
  unfold setExtStem
  rw [h]

theorem setExtStem_of_none (name : List Char) (h : lastDotSplit name = none) :
    setExtStem name = name := by
  unfold setExtStem
  rw [h]

theorem setExtStem_no_slash (name : List Char) (h : '/' ∉ name) :
    '/' ∉ setExtStem name := by
  cases hd : lastDotSplit name with
  | none => rw [setExtStem_of_none name hd]; exact h
  | some q =>
    obtain ⟨s, e⟩ := q
    rw [setExtStem_of_split name s e hd]
    by_cases hs : s = []
    · rw [if_pos hs]; exact h
    · rw [if_neg hs]
      intro hm
      refine h ?_
      rw [(lastDotSplit_spec name s e hd).1]
      exact List.mem_append.mpr (Or.inl hm)

theorem setExtLogBak_no_slash (name : List Char) (h : '/' ∉ name) :
    '/' ∉ setExtLogBak name := by
  unfold setExtLogBak
  intro hm
  cases List.mem_append.mp hm with
  | inl h1 => exact setExtStem_no_slash name h h1
  | inr h2 => exact (by decide : '/' ∉ ".log.bak".toList) h2

theorem setExtLogBak_ne (name : List Char) : setExtLogBak name ≠ name := by
  unfold setExtLogBak
  cases hd : lastDotSplit name with
  | none =>
    rw [setExtStem_of_none name hd]
    intro hEq
    have hl := congrArg List.length hEq
    simp at hl
  | some q =>
    obtain ⟨s, e⟩ := q
    obtain ⟨hdec, hnd⟩ := lastDotSplit_spec name s e hd
    rw [setExtStem_of_split name s e hd]
    by_cases hs : s = []
    · rw [if_pos hs]
      intro hEq
      have hl := congrArg List.length hEq
      simp at hl
    · rw [if_neg hs]
      intro hEq
      rw [hdec] at hEq
      have hext : ".log.bak".toList = '.' :: "log.bak".toList := by decide
      rw [hext] at hEq
      have hcc : ('.' :: "log.bak".toList : List Char) = '.' :: e :=
        List.append_cancel_left hEq
      have he : "log.bak".toList = e := by injection hcc
      exact hnd (by rw [← he]; decide)

theorem backupPath_ne (p : List Char) : backupPath p ≠ p := by
  intro hEq
  have hEq2 : parentDir p ++ setExtLogBak (fileName p) = parentDir p ++ fileName p :=
    hEq.trans (splitPath_recomb p).symm
  exact setExtLogBak_ne (fileName p) (List.append_cancel_left hEq2)

theorem fileName_backupPath (p : List Char) :
    fileName (backupPath p) = setExtLogBak (fileName p) := by
  show (splitPath (parentDir p ++ setExtLogBak (fileName p))).2 = setExtLogBak (fileName p)
  rw [splitPath_dir_append (parentDir p) (setExtLogBak (fileName p))
    (parentDir_shape p) (setExtLogBak_no_slash _ (fileName_no_slash p))]

theorem parentDir_backupPath (p : List Char) :
    parentDir (backupPath p) = parentDir p := by
  show (splitPath (parentDir p ++ setExtLogBak (fileName p))).1 = parentDir p
  rw [splitPath_dir_append (parentDir p) (setExtLogBak (fileName p))
    (parentDir_shape p) (setExtLogBak_no_slash _ (fileName_no_slash p))]

theorem extensionOf_backupPath (p : List Char) :
    extensionOf (backupPath p) = some "bak".toList := by
  unfold extensionOf
  rw [fileName_backupPath p]
  have h1 : setExtLogBak (fileName p)
      = (setExtStem (fileName p) ++ ".log".toList) ++ '.' :: "bak".toList := by
    unfold setExtLogBak
    rw [List.append_assoc]
    rfl
  rw [h1, lastDotSplit_append _ _ (by decide : '.' ∉ "bak".toList)]
  show (if setExtStem (fileName p) ++ ".log".toList = ([] : List Char)
    then none else some "bak".toList) = some "bak".toList
  rw [if_neg ?hne]
  case hne =>
    intro hnil
    have hl := congrArg List.length hnil
    rw [List.length_append] at hl
    have h4 : (".log".toList).length = 4 := rfl
    rw [h4] at hl
    simp at hl

/-! ## File-system model

An `FS` is a list of inode contents (byte lists, indexed by inode id) plus
an association list from path names to inode ids.  `fs::rename` rebinds a
name to the source's inode (overwriting any binding of the destination, as
POSIX rename does) without touching contents; a file handle is an inode id,
so a handle opened before a rename keeps appending to the renamed file.
Every name denotes a regular file (`transaction_log.rs` only ever inspects
files), and directory listing is by comparing `parentDir`. -/

structure FS where
  files : List (List Nat)
  names : List (List Char × Nat)

def assocLookup : List (List Char × Nat) → List Char → Option Nat
  | [], _ => none
  | (q, i) :: rest, p => if q = p then some i else assocLookup rest p

def assocRemove : List (List Char × Nat) → List Char → List (List Char × Nat)
  | [], _ => []
  | (q, i) :: rest, p =>
    if q = p then assocRemove rest p else (q, i) :: assocRemove rest p

def lookupName (fs : FS) (p : List Char) : Option Nat :=
  assocLookup fs.names p

/-- Unbind a path (`fs::remove_file`): the inode content survives for any
open handle, only the name goes away. -/
def removeFile (fs : FS) (p : List Char) : FS :=
  { fs with names := assocRemove fs.names p }

/-- Append bytes through an open handle (inode id). -/
def writeBytes (fs : FS) (i : Nat) (data : List Nat) : FS :=
  { fs with files := fs.files.set i (fs.files.getD i [] ++ data) }

/-- `OpenOptions::new().create(true).append(true).open(path)`: reuse the
bound inode, or bind the path to a fresh empty inode. -/
def openAppend (fs : FS) (p : List Char) : FS × Nat :=
  match lookupName fs p with
  | some i => (fs, i)
  | none =>
    ({ files := fs.files ++ [[]], names := (p, fs.files.length) :: fs.names },
     fs.files.length)

/-- `File::create(path)`: truncate the bound inode, or bind the path to a
fresh empty inode. -/
def createTruncate (fs : FS) (p : List Char) : FS × Nat :=
  match lookupName fs p with
  | some i => ({ fs with files := fs.files.set i [] }, i)
  | none =>
    ({ files := fs.files ++ [[]], names := (p, fs.files.length) :: fs.names },
     fs.files.length)

/-- `fs::rename(src, dst)`: fails if `src` is unbound; otherwise rebinds
`dst` to `src`'s inode, removing the `src` binding (and any old `dst`
binding). -/
def renamePath (fs : FS) (src dst : List Char) : Option FS :=
  match lookupName fs src with
  | none => none
  | some i =>
    some { fs with names := (dst, i) :: assocRemove (assocRemove fs.names src) dst }

def fileContent (fs : FS) (p : List Char) : Option (List Nat) :=
  (lookupName fs p).map (fun i => fs.files.getD i [])

/-! ## The write-ahead log (`src/transaction_log.rs`) -/

/-- `TransactionLog`: a `BufWriter<File>` (inode handle plus in-memory
buffer of capacity 8192), the log path, and the configured thresholds.
`compact_threshold` is an `f64` in the source; it is modelled as a rational,
exact for the dyadic constants the source's tests use. -/
structure TransactionLog where
  fd : Nat
  buf : List Nat
  path : List Char
  maxSize : Nat
  maxFiles : Nat
  compactThreshold : ℚ

/-- `BufWriter::with_capacity(8192, file)`. -/
def bufCapacity : Nat := 8192

/-- `BufWriter::flush`: write the buffered bytes through the handle and
empty the buffer. -/
def flushBuf (fs : FS) (log : TransactionLog) : FS × TransactionLog :=
  (writeBytes fs log.fd log.buf, { log with buf := [] })

/-- `BufWriter::write_all`: spill the buffer first when the incoming bytes
would overflow it; then write data of at least the capacity straight
through, and smaller data into the buffer. -/
def bufWriteAll (fs : FS) (log : TransactionLog) (data : List Nat) :
    FS × TransactionLog :=
  let st :=
    if bufCapacity < log.buf.length + data.length then flushBuf fs log else (fs, log)
  if bufCapacity ≤ data.length then
    (writeBytes st.1 st.2.fd data, st.2)
  else
    (st.1, { st.2 with buf := st.2.buf ++ data })

/-- `TransactionLog::new`: open (create-append) the file at `path`.  (The
source also reads the file size into an unused local.) -/
def TransactionLog.new (fs : FS) (path : List Char)
    (maxSize maxFiles : Nat) (compactThreshold : ℚ) : FS × TransactionLog :=
  let opened := openAppend fs path
  (opened.1,
   { fd := opened.2, buf := [], path := path, maxSize := maxSize,
     maxFiles := maxFiles, compactThreshold := compactThreshold })

/-- The `while files.len() > self.max_files { remove(files.remove(0)) }`
loop of `TransactionLog::cleanup`, over the sorted candidate list. -/
def cleanupLoop : FS → List (List Char) → Nat → FS
  | fs, [], _ => fs
  | fs, f :: rest, maxFiles =>
    if maxFiles < (f :: rest).length then cleanupLoop (removeFile fs f) rest maxFiles
    else fs

/-- Lexicographic comparison of paths by scalar value, the order
`sort_by_key(|entry| entry.path())` induces on same-directory file names. -/
def pathLt : List Char → List Char → Bool
  | [], [] => false
  | [], _ :: _ => true
  | _ :: _, [] => false
  | a :: as_, b :: bs =>
    if a.toNat < b.toNat then true
    else if b.toNat < a.toNat then false
    else pathLt as_ bs

def insertSorted (x : List Char) : List (List Char) → List (List Char)
  | [] => [x]
  | y :: ys => if pathLt y x then y :: insertSorted x ys else x :: y :: ys

def sortPaths : List (List Char) → List (List Char)
  | [] => []
  | x :: xs => insertSorted x (sortPaths xs)

/-- `TransactionLog::cleanup`: list the log file's directory, keep the
entries with extension `log` and a stem parsing as `u32`, sort by path, and
delete from the front while more than `max_files` remain.  Deletion of a
bound name always succeeds, so cleanup is total. -/
def TransactionLog.cleanup (fs : FS) (log : TransactionLog) : FS :=
  let dir := parentDir log.path
  let candidates := (fs.names.map (fun e => e.1)).filter
    (fun p => decide (parentDir p = dir)
      && decide (extensionOf p = some "log".toList)
      && (parseU32 (stemOf p)).isSome)
  cleanupLoop fs (sortPaths candidates) log.maxFiles

/-- `BufReader::read_until(b'\n', ..)` chunking: split a byte list into
lines, each retaining its terminating `10`, the last possibly unterminated. -/
def splitLinesAux : List Nat → List Nat → List (List Nat)
  | [], acc => if acc = [] then [] else [acc.reverse]
  | b :: rest, acc =>
    if b = 10 then (acc.reverse ++ [10]) :: splitLinesAux rest []
    else splitLinesAux rest (b :: acc)

def splitLines (input : List Nat) : List (List Nat) :=
  splitLinesAux input []

/-- The read loop of `TransactionLog::compact`: `buffer` accumulates lines
without being cleared until the threshold test first passes (`total_size`
grows by the whole accumulated buffer each round, as in the source), after
which the accumulated buffer is written out and cleared; the final
`write_all(&buffer)` emits whatever remains. -/
def compactLoop (maxSize : Nat) (threshold : ℚ) :
    List (List Nat) → List Nat → Nat → List Nat
  | [], buffer, _ => buffer
  | line :: rest, buffer, totalSize =>
    let buf2 := buffer ++ line
    let total2 := totalSize + buf2.length
    if (maxSize : ℚ) * threshold ≤ (total2 : ℚ) then
      buf2 ++ compactLoop maxSize threshold rest [] total2
    else
      compactLoop maxSize threshold rest buf2 total2

def compactProcess (maxSize : Nat) (threshold : ℚ) (input : List Nat) : List Nat :=
  compactLoop maxSize threshold (splitLines input) [] 0

/-- `TransactionLog::compact`: open the active path for reading, then
`File::create` the same path — which truncates the shared inode before the
`BufReader` performs its first (lazy) read, so the loop consumes the
post-truncation content — and write the processed output back. -/
def TransactionLog.compact (fs : FS) (log : TransactionLog) : Option FS :=
  match lookupName fs log.path with
  | none => none
  | some readFd =>
    let created := createTruncate fs log.path
    let input := created.1.files.getD readFd []
    some (writeBytes created.1 created.2
      (compactProcess log.maxSize log.compactThreshold input))

/-- `TransactionLog::rotate`: rename the active file to the fixed
`*.log.bak` backup path, open a fresh active file, write `b"\n"` to it
directly, install a new `BufWriter` — dropping the old one, whose `Drop`
flushes its buffer through the old handle, i.e. into the renamed backup
inode — then run retention and compaction. -/
def TransactionLog.rotate (fs : FS) (log : TransactionLog) :
    Option (FS × TransactionLog) :=
  match renamePath fs log.path (backupPath log.path) with
  | none => none
  | some fs1 =>
    let opened := openAppend fs1 log.path
    let fs3 := writeBytes opened.1 opened.2 [10]
    let fs4 := writeBytes fs3 log.fd log.buf
    let log1 : TransactionLog := { log with fd := opened.2, buf := [] }
    let fs5 := TransactionLog.cleanup fs4 log1
    match TransactionLog.compact fs5 log1 with
    | none => none
    | some fs6 => some (fs6, log1)

/-- `TransactionLog::write`: buffer the record, rotate when the bytes
buffered since the last flush reach `max_size`, and flush at the end of the
call regardless. -/
def TransactionLog.write (fs : FS) (log : TransactionLog) (data : List Nat) :
    Option (FS × TransactionLog) :=
  let st := bufWriteAll fs log data
  if st.2.maxSize ≤ st.2.buf.length then
    match TransactionLog.rotate st.1 st.2 with
    | none => none
    | some st2 => some (flushBuf st2.1 st2.2)
  else
    some (flushBuf st.1 st.2)

/-! ## File-system lemmas -/

theorem assocLookup_remove (ns : List (List Char × Nat)) (f q : List Char) :
    assocLookup (assocRemove ns f) q = if q = f then none else assocLookup ns q := by
  induction ns with
  | nil =>
    by_cases h : q = f
    · rw [if_pos h]; rfl
    · rw [if_neg h]; rfl
  | cons e rest ih =>
    obtain ⟨p, i⟩ := e
    unfold assocRemove
    by_cases hpf : p = f
    · rw [if_pos hpf, ih]
      by_cases hqf : q = f
      · rw [if_pos hqf, if_pos hqf]
      · rw [if_neg hqf, if_neg hqf]
        show assocLookup rest q = if p = q then some i else assocLookup rest q
        rw [if_neg (fun hpq => hqf (by rw [← hpq, hpf]))]
    · rw [if_neg hpf]
      unfold assocLookup
      by_cases hpq : p = q
      · rw [if_pos hpq, if_neg (fun hqf => hpf (by rw [hpq, hqf]))]
        rw [if_pos hpq]
      · rw [if_neg hpq, ih]
        by_cases hqf : q = f
        · rw [if_pos hqf, if_pos hqf]
        · rw [if_neg hqf, if_neg hqf]
          unfold assocLookup
          rw [if_neg hpq]

theorem removeFile_files (fs : FS) (p : List Char) :
    (removeFile fs p).files = fs.files := rfl

theorem cleanupLoop_files (fs : FS) (files : List (List Char)) (mf : Nat) :
    (cleanupLoop fs files mf).files = fs.files := by
  induction files generalizing fs with
  | nil => rfl
  | cons f rest ih =>
    unfold cleanupLoop
    by_cases h : mf < (f :: rest).length
    · rw [if_pos h, ih]
      rfl
    · rw [if_neg h]

theorem cleanupLoop_lookup_not_mem (fs : FS) (files : List (List Char)) (mf : Nat)
    (q : List Char) (h : q ∉ files) :
    lookupName (cleanupLoop fs files mf) q = lookupName fs q := by
  induction files generalizing fs with
  | nil => rfl
  | cons f rest ih =>
    unfold cleanupLoop
    by_cases hc : mf < (f :: rest).length
    · rw [if_pos hc, ih _ (fun hm => h (List.mem_cons_of_mem f hm))]
      unfold lookupName removeFile
      show assocLookup (assocRemove fs.names f) q = assocLookup fs.names q
      rw [assocLookup_remove]
      rw [if_neg (fun hqf => h (by rw [hqf]; exact List.mem_cons_self f rest))]
    · rw [if_neg hc]

theorem cleanupLoop_lookup_or (fs : FS) (files : List (List Char)) (mf : Nat)
    (q : List Char) :
    lookupName (cleanupLoop fs files mf) q = lookupName fs q ∨
    lookupName (cleanupLoop fs files mf) q = none := by
  induction files generalizing fs with
  | nil => exact Or.inl rfl
  | cons f rest ih =>
    unfold cleanupLoop
    by_cases hc : mf < (f :: rest).length
    · rw [if_pos hc]
      cases ih (removeFile fs f) with
      | inl h1 =>
        rw [h1]
        unfold lookupName removeFile
        show assocLookup (assocRemove fs.names f) q = assocLookup fs.names q ∨
          assocLookup (assocRemove fs.names f) q = none
        rw [assocLookup_remove]
        by_cases hqf : q = f
        · rw [if_pos hqf]; exact Or.inr rfl
        · rw [if_neg hqf]; exact Or.inl rfl
      | inr h2 => exact Or.inr h2
    · rw [if_neg hc]
      exact Or.inl rfl

theorem mem_insertSorted (x y : List Char) (l : List (List Char))
    (h : x ∈ insertSorted y l) : x = y ∨ x ∈ l := by
  induction l with
  | nil =>
    cases List.mem_singleton.mp h
    exact Or.inl rfl
  | cons z zs ih =>
    unfold insertSorted at h
    by_cases hc : pathLt z y
    · rw [if_pos hc] at h
      cases List.mem_cons.mp h with
      | inl h1 => exact Or.inr (h1 ▸ List.mem_cons_self z zs)
      | inr h2 =>
        cases ih h2 with
        | inl h3 => exact Or.inl h3
        | inr h4 => exact Or.inr (List.mem_cons_of_mem z h4)
    · rw [if_neg hc] at h
      cases List.mem_cons.mp h with
      | inl h1 => exact Or.inl h1
      | inr h2 => exact Or.inr h2

theorem mem_sortPaths (x : List Char) (l : List (List Char)) (h : x ∈ sortPaths l) :
    x ∈ l := by
  induction l with
  | nil => cases h
  | cons y ys ih =>
    unfold sortPaths at h
    cases mem_insertSorted x y (sortPaths ys) h with
    | inl h1 => exact h1 ▸ List.mem_cons_self y ys
    | inr h2 => exact List.mem_cons_of_mem y (ih h2)

theorem cleanup_files (fs : FS) (log : TransactionLog) :
    (TransactionLog.cleanup fs log).files = fs.files := by
  unfold TransactionLog.cleanup
  exact cleanupLoop_files _ _ _

/-- The backup name never matches cleanup's numeric-`.log` filter, so its
binding survives retention. -/
theorem cleanup_lookup_backup (fs : FS) (log : TransactionLog) (p : List Char) :
    lookupName (TransactionLog.cleanup fs log) (backupPath p)
      = lookupName fs (backupPath p) := by
  unfold TransactionLog.cleanup
  refine cleanupLoop_lookup_not_mem _ _ _ _ ?_
  intro hmem
  have hmem2 := mem_sortPaths _ _ hmem
  have hfilter := List.of_mem_filter hmem2
  have hext : extensionOf (backupPath p) = some "log".toList := by
    have h1 := Bool.and_elim_left (Bool.and_elim_left hfilter)
    have h2 := Bool.and_elim_right (Bool.and_elim_left hfilter)
    exact of_decide_eq_true h2
  rw [extensionOf_backupPath p] at hext
  have : ("bak".toList : List Char) = "log".toList := by injection hext
  exact absurd this (by decide)

theorem getD_append_left {α : Type} (l m : List α) (i : Nat) (d : α)
    (h : i < l.length) : (l ++ m).getD i d = l.getD i d := by
  induction l generalizing i with
  | nil => simp at h
  | cons x xs ih =>
    cases i with
    | zero => rfl
    | succ n => exact ih n (by simpa using h)

theorem getD_set_nil {α : Type} (l : List (List α)) (i : Nat) :
    (l.set i []).getD i [] = [] := by
  by_cases h : i < l.length
  · exact getD_set_self l i [] [] h
  · rw [getD_ge_length _ _ _ (by rw [List.length_set]; omega)]

theorem lookupName_writeBytes (fs : FS) (i : Nat) (data : List Nat) (q : List Char) :
    lookupName (writeBytes fs i data) q = lookupName fs q := rfl

theorem lookupName_setFiles (fs : FS) (x : List (List Nat)) (q : List Char) :
    lookupName { fs with files := x } q = lookupName fs q := rfl

theorem writeBytes_files (fs : FS) (i : Nat) (data : List Nat) :
    (writeBytes fs i data).files = fs.files.set i (fs.files.getD i [] ++ data) := rfl

theorem setFiles_files (fs : FS) (x : List (List Nat)) :
    ({ fs with files := x } : FS).files = x := rfl

theorem writeBytes_length (fs : FS) (i : Nat) (data : List Nat) :
    (writeBytes fs i data).files.length = fs.files.length := by
  rw [writeBytes_files, List.length_set]

theorem writeBytes_getD_self (fs : FS) (i : Nat) (data : List Nat)
    (h : i < fs.files.length) :
    (writeBytes fs i data).files.getD i [] = fs.files.getD i [] ++ data := by
  rw [writeBytes_files]
  exact getD_set_self _ _ _ _ h

theorem writeBytes_getD_ne (fs : FS) (i j : Nat) (data : List Nat) (h : i ≠ j) :
    (writeBytes fs i data).files.getD j [] = fs.files.getD j [] := by
  rw [writeBytes_files]
  exact getD_set_ne _ _ _ _ _ h

theorem assocLookup_cons_ne (p : List Char) (i : Nat) (rest : List (List Char × Nat))
    (q : List Char) (h : p ≠ q) :
    assocLookup ((p, i) :: rest) q = assocLookup rest q := by
  show (if p = q then some i else assocLookup rest q) = assocLookup rest q
  rw [if_neg h]

theorem assocLookup_cons_self (p : List Char) (i : Nat)
    (rest : List (List Char × Nat)) :
    assocLookup ((p, i) :: rest) p = some i := by
  show (if p = p then some i else assocLookup rest p) = some i
  rw [if_pos rfl]

theorem cleanup_lookup_or (fs : FS) (log : TransactionLog) (q : List Char) :
    lookupName (TransactionLog.cleanup fs log) q = lookupName fs q ∨
    lookupName (TransactionLog.cleanup fs log) q = none := by
  unfold TransactionLog.cleanup
  exact cleanupLoop_lookup_or _ _ _ _

theorem compact_eq_some (fs : FS) (log : TransactionLog) (fdA : Nat)
    (h : lookupName fs log.path = some fdA) :
    TransactionLog.compact fs log
      = some (writeBytes { fs with files := fs.files.set fdA [] } fdA
          (compactProcess log.maxSize log.compactThreshold
            ((fs.files.set fdA []).getD fdA []))) := by
  unfold TransactionLog.compact createTruncate
  rw [h]

/-- The tail of `rotate` (retention then compaction) preserves the backup
binding and its content: cleanup never matches the `.bak` name, and
compaction rewrites only the (fresh) active inode. -/
theorem rotate_tail_spec (fsStart : FS) (log1 : TransactionLog) (p : List Char)
    (oldFd : Nat) (content : List Nat) (fsR : FS) (logR : TransactionLog)
    (hbk : lookupName fsStart (backupPath p) = some oldFd)
    (hcv : fsStart.files.getD oldFd [] = content)
    (hactive : lookupName fsStart log1.path = some log1.fd)
    (hne : oldFd ≠ log1.fd)
    (h : (match TransactionLog.compact (TransactionLog.cleanup fsStart log1) log1 with
          | none => none
          | some fs6 => some (fs6, log1)) = some (fsR, logR)) :
    lookupName fsR (backupPath p) = some oldFd ∧
    fsR.files.getD oldFd [] = content ∧ logR = log1 := by
  cases hcl : lookupName (TransactionLog.cleanup fsStart log1) log1.path with
  | none =>
    have hcompact : TransactionLog.compact (TransactionLog.cleanup fsStart log1) log1
        = none := by
      unfold TransactionLog.compact
      rw [hcl]
    rw [hcompact] at h
    cases h
  | some fdA =>
    have hor := cleanup_lookup_or fsStart log1 log1.path
    rw [hcl, hactive] at hor
    have hfdA : fdA = log1.fd := by
      cases hor with
      | inl h1 => exact Option.some.inj h1
      | inr h2 => exact Option.noConfusion h2
    subst hfdA
    rw [compact_eq_some _ _ log1.fd hcl] at h
    have h2 := Option.some.inj h
    rw [Prod.mk.injEq] at h2
    obtain ⟨hf, hl⟩ := h2
    refine ⟨?_, ?_, hl.symm⟩
    · rw [← hf]
      show lookupName (writeBytes _ _ _) (backupPath p) = some oldFd
      rw [lookupName_writeBytes, lookupName_setFiles, cleanup_lookup_backup]
      exact hbk
    · rw [← hf]
      show (writeBytes _ _ _).files.getD oldFd [] = content
      rw [writeBytes_getD_ne _ _ _ _ (fun hEq => hne hEq.symm)]
      rw [setFiles_files, getD_set_ne _ _ _ _ _ (fun hEq => hne hEq.symm)]
      rw [show (TransactionLog.cleanup fsStart log1).files = fsStart.files from
        cleanup_files fsStart log1]
      exact hcv

theorem lookupName_mk (x : List (List Nat)) (L : List (List Char × Nat))
    (q : List Char) :
    lookupName { files := x, names := L } q = assocLookup L q := rfl

/-- What a successful `rotate` guarantees: the old active inode, now bound to
the backup path, holds its previous content followed by the buffer the
dropped `BufWriter` flushed into it; the log keeps its path, gets an empty
buffer and the freshly created inode as its handle. -/
theorem rotate_spec (fs : FS) (log : TransactionLog)
    (hname : lookupName fs log.path = some log.fd)
    (hfd : log.fd < fs.files.length)
    (fsR : FS) (logR : TransactionLog)
    (hrot : TransactionLog.rotate fs log = some (fsR, logR)) :
    lookupName fsR (backupPath log.path) = some log.fd ∧
    fsR.files.getD log.fd [] = fs.files.getD log.fd [] ++ log.buf ∧
    logR = { log with fd := fs.files.length, buf := [] } := by
  have hrn : renamePath fs log.path (backupPath log.path) = some
      { fs with names := (backupPath log.path, log.fd)
          :: assocRemove (assocRemove fs.names log.path) (backupPath log.path) } := by
    unfold renamePath
    rw [hname]
  have hlk1 : lookupName
      ({ fs with names := (backupPath log.path, log.fd)
          :: assocRemove (assocRemove fs.names log.path) (backupPath log.path) } : FS)
      log.path = none := by
    show assocLookup ((backupPath log.path, log.fd)
      :: assocRemove (assocRemove fs.names log.path) (backupPath log.path)) log.path = none
    rw [assocLookup_cons_ne _ _ _ _ (backupPath_ne log.path)]
    rw [assocLookup_remove, if_neg (fun hEq => backupPath_ne log.path hEq.symm)]
    rw [assocLookup_remove, if_pos rfl]
  have hoa : openAppend
      ({ fs with names := (backupPath log.path, log.fd)
          :: assocRemove (assocRemove fs.names log.path) (backupPath log.path) } : FS)
      log.path
      = ({ files := fs.files ++ [[]],
           names := (log.path, fs.files.length) :: (backupPath log.path, log.fd)
             :: assocRemove (assocRemove fs.names log.path) (backupPath log.path) },
         fs.files.length) := by
    unfold openAppend
    rw [hlk1]
  simp only [TransactionLog.rotate, hrn, hoa] at hrot
  refine rotate_tail_spec _ _ log.path log.fd (fs.files.getD log.fd [] ++ log.buf)
      fsR logR ?_ ?_ ?_ ?_ hrot
  · rw [lookupName_writeBytes, lookupName_writeBytes, lookupName_mk]
    rw [assocLookup_cons_ne _ _ _ _ (fun hEq => backupPath_ne log.path hEq.symm)]
    exact assocLookup_cons_self _ _ _
  · rw [writeBytes_getD_self, writeBytes_getD_ne _ _ _ _ (Nat.ne_of_lt hfd).symm]
    · show (fs.files ++ [[]]).getD log.fd [] ++ log.buf
        = fs.files.getD log.fd [] ++ log.buf
      rw [getD_append_left _ _ _ _ hfd]
    · rw [writeBytes_length]
      show log.fd < (fs.files ++ [[]]).length
      rw [List.length_append]
      omega
  · rw [lookupName_writeBytes, lookupName_writeBytes, lookupName_mk]
    exact assocLookup_cons_self _ _ _
  · exact Nat.ne_of_lt hfd

/-- Claim C1: for every log and every record whose append brings the bytes
buffered since the last flush up to `max_size` (the buffer is empty when an
append starts, because `write` flushes before returning and `new`/`rotate`
install empty buffers), the append triggers rotation and, when it returns
successfully, the triggering record's bytes are present — as the final
bytes — in either the new backup file or the new active file: rotation
loses no data.  They in fact always land in the backup file: the renamed
inode is still the target of the old `BufWriter`'s handle, whose `Drop`
flushes the buffer into it. -/
theorem rotation_preserves_triggering_record
    (fs : FS) (log : TransactionLog) (data : List Nat)
    (hname : lookupName fs log.path = some log.fd)
    (hfd : log.fd < fs.files.length)
    (hbuf : log.buf = [])
    (hsmall : data.length < bufCapacity)
    (htrig : log.maxSize ≤ data.length)
    (fs2 : FS) (log2 : TransactionLog)
    (hw : TransactionLog.write fs log data = some (fs2, log2)) :
    ∃ old, fileContent fs log.path = some old ∧
      ((∃ bs, fileContent fs2 (backupPath log.path) = some bs ∧ data <:+ bs) ∨
       (∃ bs, fileContent fs2 log2.path = some bs ∧ data <:+ bs)) := by
  have hc1 : ¬ bufCapacity < data.length := by omega
  have hc2 : ¬ bufCapacity ≤ data.length := by omega
  have hbw : bufWriteAll fs log data = (fs, { log with buf := data }) := by
    unfold bufWriteAll
    simp only [hbuf, List.length_nil, Nat.zero_add, if_neg hc1, if_neg hc2,
      List.nil_append]
  unfold TransactionLog.write at hw
  rw [hbw] at hw
  simp only [] at hw
  rw [if_pos htrig] at hw
  cases hrt : TransactionLog.rotate fs { log with buf := data } with
  | none =>
    rw [hrt] at hw
    cases hw
  | some pR =>
    obtain ⟨fsR, logR⟩ := pR
    rw [hrt] at hw
    have hfl := Option.some.inj hw
    have hfs2 : writeBytes fsR logR.fd logR.buf = fs2 := congrArg Prod.fst hfl
    obtain ⟨hA, hB, hC⟩ :=
      rotate_spec fs { log with buf := data } hname hfd fsR logR hrt
    have hA2 : lookupName fsR (backupPath log.path) = some log.fd := hA
    have hB2 : fsR.files.getD log.fd [] = fs.files.getD log.fd [] ++ data := hB
    have hC2 : logR = { log with fd := fs.files.length, buf := [] } := hC
    have hne2 : logR.fd ≠ log.fd := by
      rw [hC2]
      exact (Nat.ne_of_lt hfd).symm
    refine ⟨fs.files.getD log.fd [], ?_,
      Or.inl ⟨fs.files.getD log.fd [] ++ data, ?_, List.suffix_append _ _⟩⟩
    · unfold fileContent
      rw [hname]
      rfl
    · rw [← hfs2]
      unfold fileContent
      rw [lookupName_writeBytes, hA2]
      have hcontent : (writeBytes fsR logR.fd logR.buf).files.getD log.fd []
          = fs.files.getD log.fd [] ++ data := by
        rw [writeBytes_getD_ne _ _ _ _ hne2]
        exact hB2
      rw [Option.map_some', hcontent]

def wFS0 : FS := { files := [], names := [] }

def wNew := TransactionLog.new wFS0 "app.log".toList 5 3 (1/2)

def wRes := TransactionLog.write wNew.1 wNew.2 [104, 101, 108, 108, 111]

def wFS2 : FS := (wRes.getD (wNew.1, wNew.2)).1

def wLog2 : TransactionLog := (wRes.getD (wNew.1, wNew.2)).2

theorem rotation_preserves_triggering_record_witness :
    ∃ old, fileContent wNew.1 wNew.2.path = some old ∧
      ((∃ bs, fileContent wFS2 (backupPath wNew.2.path) = some bs ∧
          [104, 101, 108, 108, 111] <:+ bs) ∨
       (∃ bs, fileContent wFS2 wLog2.path = some bs ∧
          [104, 101, 108, 108, 111] <:+ bs)) :=
  rotation_preserves_triggering_record wNew.1 wNew.2 [104, 101, 108, 108, 111]
    rfl (by decide) rfl (by decide) (by decide) wFS2 wLog2 rfl

/-- The retention scenario: `logs/app.log` with `max_size = 3`,
`max_files = 2`, and three appends of three bytes each, every one of which
triggers a rotation. -/
def rFS0 : FS := { files := [], names := [] }

def rNew := TransactionLog.new rFS0 "logs/app.log".toList 3 2 (1/2)

def rStep1 := TransactionLog.write rNew.1 rNew.2 [97, 97, 10]

def rStep2 := rStep1.bind (fun st => TransactionLog.write st.1 st.2 [98, 98, 10])

def rStep3 := rStep2.bind (fun st => TransactionLog.write st.1 st.2 [99, 99, 10])

/-- Claim C2 evaluated at the failing input: after three rotations with
`max_files = 2`, the directory holds exactly one backup — the fixed name
`logs/app.log.bak` is overwritten by every rotation (its content is only the
last record), and cleanup's numeric-stem `.log` filter matches nothing —
instead of the two distinct, most recent backups the claim requires.  The
two earlier backup inodes survive namelessly, i.e. their data is
unreachable. -/
theorem retention_single_backup_eval :
    (rStep3.map (fun st => st.1.names.map Prod.fst))
        = some ["logs/app.log".toList, "logs/app.log.bak".toList] ∧
    (rStep3.map (fun st => fileContent st.1 "logs/app.log.bak".toList))
        = some (some [99, 99, 10]) ∧
    (rStep3.map (fun st => fileContent st.1 "logs/app.log".toList))
        = some (some []) := by
  refine ⟨?_, ?_, ?_⟩ <;> decide

/-- The compaction scenario: `logs/app.log` with `max_size = 4`,
`max_files = 3`, `compact_threshold = 1/2`; a three-byte record is appended
and flushed, then a five-byte record triggers rotation (and hence
compaction). -/
def cFS0 : FS := { files := [], names := [] }

def cNew := TransactionLog.new cFS0 "logs/app.log".toList 4 3 (1/2)

def cStep1 := TransactionLog.write cNew.1 cNew.2 [97, 98, 10]

def cStep2 := cStep1.bind (fun st =>
  TransactionLog.write st.1 st.2 [99, 100, 101, 102, 10])

/-- Claim C8 evaluated at the failing input: compaction only ever runs from
`rotate`, immediately after the freshly created active file replaced the
renamed one, so it processes the near-empty new file (and, truncating it
before reading it, leaves it completely empty) while the eight bytes of
records to be compacted sit untouched in the backup.  The active file ends
empty rather than holding the suffix of records of cumulative size at least
`compact_threshold * max_size = 2`. -/
theorem compact_on_fresh_file_eval :
    (cStep2.map (fun st => fileContent st.1 "logs/app.log".toList))
        = some (some []) ∧
    (cStep2.map (fun st => fileContent st.1 (backupPath "logs/app.log".toList)))
        = some (some [97, 98, 10, 99, 100, 101, 102, 10]) := by
  refine ⟨?_, ?_⟩ <;> decide
